import Mathlib

/-!
Verification of the record-decoding and field-formatting engine of
`parseit-rs` (files `src/parse.rs`, `src/config.rs`, `src/io.rs`).

Strings are modelled as lists of Unicode code points (`Str := List Nat`).
Rust indexes `String`/`str` by UTF-8 *bytes*, so wherever the source calls
`.len()` or slices `s[a..b]` the model applies `utf8Len` respectively
`strSlice`, which measure the UTF-8 encoding of the code-point sequence and
return `none` exactly where Rust would panic (slice bound out of range, or a
bound that is not a character boundary).  Fallible computations and
potentially panicking computations are both modelled with `Option`:
`none` models a Rust panic at that point of the pipeline.
-/

namespace Parseit

/-- Strings are sequences of Unicode scalar values (code points). -/
abbrev Str := List Nat

/-- Code points of a Lean string literal. -/
def str (s : String) : Str := s.data.map Char.toNat

/-- Code points of the decimal representation of a natural number,
mirroring Rust's `usize::to_string` / `format!` of a nonnegative integer. -/
def natRepr (n : Nat) : Str := str (Nat.repr n)

/-- Numeric value of a list of ASCII digit code points, most significant first. -/
def digitsToNat (ds : Str) : Nat := List.foldl (fun a c => a * 10 + (c - 48)) 0 ds

/-- Width in bytes of one code point in UTF-8. -/
def utf8Width (c : Nat) : Nat :=
  if c < 128 then 1 else if c < 2048 then 2 else if c < 65536 then 3 else 4

/-- Length in bytes of the UTF-8 encoding of a code-point sequence.
This is what Rust's `String::len` returns for the modelled string. -/
def utf8Len (s : Str) : Nat := (s.map utf8Width).sum

/-- Drop `n` UTF-8 bytes from the front of a string; `none` when `n` overruns
the string or falls strictly inside the encoding of one character (Rust
panics on such a slice bound). -/
def dropBytes : Str → Nat → Option Str
  | s, 0 => some s
  | [], _ + 1 => none
  | c :: cs, n + 1 =>
    if utf8Width c ≤ n + 1 then dropBytes cs (n + 1 - utf8Width c) else none

/-- Take `n` UTF-8 bytes from the front of a string; `none` when `n` overruns
the string or falls strictly inside one character. -/
def takeBytes : Str → Nat → Option Str
  | _, 0 => some []
  | [], _ + 1 => none
  | c :: cs, n + 1 =>
    if utf8Width c ≤ n + 1 then (takeBytes cs (n + 1 - utf8Width c)).map (fun t => c :: t)
    else none

/-- Model of the Rust string slice `s[a..b]` (byte indices): `none` models the
panic on `a > b`, an out-of-range bound, or a bound that is not a character
boundary. -/
def strSlice (s : Str) (a b : Nat) : Option Str :=
  if a ≤ b then (dropBytes s a).bind (fun t => takeBytes t (b - a)) else none

/-- Unicode `White_Space` code points, the set used by Rust's
`char::is_whitespace` (hence by `str::trim` and `str::trim_end`). -/
def isRustWhitespace (c : Nat) : Bool :=
  (c == 9) || (c == 10) || (c == 11) || (c == 12) || (c == 13) || (c == 32) ||
  (c == 133) || (c == 160) || (c == 5760) ||
  (decide (8192 ≤ c) && decide (c ≤ 8202)) ||
  (c == 8232) || (c == 8233) || (c == 8239) || (c == 8287) || (c == 12288)

/-- Model of Rust `str::trim`: remove leading and trailing whitespace characters. -/
def trimCP (s : Str) : Str :=
  ((s.dropWhile isRustWhitespace).reverse.dropWhile isRustWhitespace).reverse

/-- Model of Rust `str::trim_end`: remove trailing whitespace characters. -/
def trimEndCP (s : Str) : Str :=
  (s.reverse.dropWhile isRustWhitespace).reverse

/-- The Windows-1252 decode table used by `encoding_rs::WINDOWS_1252`
(WHATWG mapping: bytes 0x00-0x7F and 0xA0-0xFF map to themselves, the
0x80-0x9F range maps to the listed code points, with the five undefined
bytes mapped to the corresponding C1 controls). -/
def w1252 (b : Nat) : Nat :=
  if b = 128 then 8364 else if b = 130 then 8218 else if b = 131 then 402
  else if b = 132 then 8222 else if b = 133 then 8230 else if b = 134 then 8224
  else if b = 135 then 8225 else if b = 136 then 710 else if b = 137 then 8240
  else if b = 138 then 352 else if b = 139 then 8249 else if b = 140 then 338
  else if b = 142 then 381 else if b = 145 then 8216 else if b = 146 then 8217
  else if b = 147 then 8220 else if b = 148 then 8221 else if b = 149 then 8226
  else if b = 150 then 8211 else if b = 151 then 8212 else if b = 152 then 732
  else if b = 153 then 8482 else if b = 154 then 353 else if b = 155 then 8250
  else if b = 156 then 339 else if b = 158 then 382 else if b = 159 then 376
  else b

/-- Decode a raw byte buffer under Windows-1252, one character per byte,
mirroring `WINDOWS_1252.decode(&buffer)` on buffers that do not begin with a
Unicode byte-order mark (`encoding_rs` would switch encodings on a BOM
prefix; no claim concerns BOM-prefixed records). -/
def decode_w1252 (buffer : List Nat) : Str := buffer.map w1252

/-- ASCII case folding of one code point.  The source lowercases the field
type with `str::to_lowercase` and only ever compares the result against the
ASCII keywords "zamount", "amount" and "numeric"; no non-ASCII code point
maps into those strings under Unicode lowercasing, so folding only the ASCII
range is observationally equivalent here. -/
def to_lowercase_cp (c : Nat) : Nat := if 65 ≤ c ∧ c ≤ 90 then c + 32 else c

/-- Model of `rust_decimal::Decimal`: sign flag, 96-bit coefficient and a
scale in `0..=28`; the represented value is `(-1)^neg * mant / 10^scale`. -/
structure RDec where
  neg : Bool
  mant : Nat
  scale : Nat
  deriving DecidableEq, Repr

/-- Scanner for the digit body of a decimal literal, as accepted by
`rust_decimal`'s `FromStr`: decimal digits, at most one `.`, `_` separators
allowed only after a leading digit, at least one digit overall.  Returns the
integer digits and the fractional digits. -/
def scanDecAux : Str → Bool → Bool → Str → Str → Option (Str × Str)
  | [], seenDigit, _, ints, fracs =>
    if seenDigit then some (ints.reverse, fracs.reverse) else none
  | c :: rest, seenDigit, afterDot, ints, fracs =>
    if 48 ≤ c ∧ c ≤ 57 then
      if afterDot then scanDecAux rest true true ints (c :: fracs)
      else scanDecAux rest true false (c :: ints) fracs
    else if c = 46 then
      if afterDot then none else scanDecAux rest seenDigit true ints fracs
    else if c = 95 then
      if seenDigit then scanDecAux rest seenDigit afterDot ints fracs else none
    else none

/-- Reduce an oversized coefficient to below 2^96 by dropping trailing scale
digits with round-half-up, as `rust_decimal`'s string parser does when a
literal has more significant digits than fit; `none` when the integral part
alone overflows (parse error). -/
def fitMant : Nat → Nat → Option (Nat × Nat)
  | m, 0 => if m < 2 ^ 96 then some (m, 0) else none
  | m, sc + 1 => if m < 2 ^ 96 then some (m, sc + 1) else fitMant ((m + 5) / 10) sc

/-- Parse the part of a decimal literal after the optional sign. -/
def from_str_body (neg : Bool) (body : Str) : Option RDec :=
  match scanDecAux body false false [] [] with
  | none => none
  | some (ints, fracs) =>
    let fracKeep := fracs.take 28
    let dropped := fracs.drop 28
    let m0 := digitsToNat (ints ++ fracKeep)
    let m1 := if 53 ≤ dropped.headD 0 then m0 + 1 else m0
    match fitMant m1 fracKeep.length with
    | none => none
    | some (m, sc) => some ⟨neg, m, sc⟩

/-- Model of `rust_decimal::Decimal::from_str`: optional sign, decimal
digits with at most one point; fractional digits beyond the 28 supported are
rounded half-up.  `none` models the `Err` result. -/
def from_str_cp (s : Str) : Option RDec :=
  match s with
  | [] => none
  | 45 :: body => from_str_body true body
  | 43 :: body => from_str_body false body
  | body => from_str_body false body

/-- Model of `Decimal::set_scale`: rewrites the scale field only, leaving the
coefficient untouched (so the numeric value is multiplied by a power of ten
whenever the new scale differs); errors iff the scale exceeds 28. -/
def set_scale (d : RDec) (sc : Nat) : Option RDec :=
  if sc ≤ 28 then some { d with scale := sc } else none

/-- Model of `Decimal::to_string`: the coefficient printed with the decimal
point placed `scale` digits from the right, left-padded with zeros so that at
least one integer digit appears, with a leading minus when the sign flag is
set. -/
def dec_to_string (d : RDec) : Str :=
  let digits := natRepr d.mant
  let core :=
    if d.scale = 0 then digits
    else
      let padded :=
        if digits.length < d.scale + 1 then
          List.replicate (d.scale + 1 - digits.length) 48 ++ digits
        else digits
      padded.take (padded.length - d.scale) ++ 46 :: padded.drop (padded.length - d.scale)
  if d.neg then 45 :: core else core

/-- Model of Rust `str::split('.')` collected into a vector: always returns at
least one (possibly empty) part. -/
def splitDot : Str → List Str
  | [] => [[]]
  | c :: rest =>
    let r := splitDot rest
    if c = 46 then [] :: r else (c :: r.headD []) :: r.tail

/-- The thousands-grouping loop of `format_field_value`, running over the
reversed integer part: a `.` is pushed before every third digit, a leading
`-` is remembered and skipped.  Returns the accumulated (still reversed)
grouped digits and the sign flag. -/
def group_loop : Str → Nat → Bool → Str → Str × Bool
  | [], _, neg, acc => (acc, neg)
  | c :: rest, count, neg, acc =>
    if c = 45 then group_loop rest count true acc
    else
      let acc2 := if 0 < count ∧ count % 3 = 0 then acc ++ [46] else acc
      group_loop rest (count + 1) neg (acc2 ++ [c])

/-- FASE 1 of the "zamount" (implicit-decimal) branch of
`format_field_value`: left-pad the raw digits when they are shorter than the
decimal-place count, split at the implied decimal point (a *byte* index, so
`none` models the slice panic on non-ASCII input), strip leading zeros from
the integer part falling back to "0", and join with a point. -/
def zamount_number_string (numStr : Str) (finalDP : Nat) : Option Str :=
  let len := utf8Len numStr
  let integerPart :=
    if len < finalDP then List.replicate (finalDP - len + 1) 48 ++ numStr else numStr
  let len2 := utf8Len integerPart
  let indexOfDot := len2 - finalDP
  match strSlice integerPart 0 indexOfDot, dropBytes integerPart indexOfDot with
  | some intPart, some decPart =>
    let fi := intPart.dropWhile (fun c => c == 48)
    let fi2 := if fi = [] then [48] else fi
    some (fi2 ++ 46 :: decPart)
  | _, _ => none

/-- FASE 2 of `format_field_value`: parse the constructed decimal text
(falling back to the original raw value on failure), force the scale with
`set_scale` (whose error is unwrapped with `.expect`, i.e. a panic, modelled
as `none`), then render either with `,` as decimal separator or with full
thousands grouping. -/
def phase2 (rawValue numberString : Str) (finalDP : Nat) (formatNumeric : Bool) :
    Option Str :=
  match from_str_cp numberString with
  | none => some rawValue
  | some d =>
    match set_scale d finalDP with
    | none => none
    | some d2 =>
      if formatNumeric = false then
        some ((dec_to_string d2).map (fun c => if c = 46 then 44 else c))
      else
        let numberStr := dec_to_string d2
        let parts := splitDot numberStr
        let integerPart := parts.headD []
        let decimalPart := (parts.drop 1).headD (str "00")
        let grouped := group_loop integerPart.reverse 0 false []
        let fmtInt0 := grouped.1.reverse
        let fmtInt := if grouped.2 then 45 :: fmtInt0 else fmtInt0
        some (fmtInt ++ 44 :: decimalPart)

/-- Model of `format_field_value` in `src/parse.rs`: trims the raw value,
short-circuits blank input, builds a standard decimal string according to the
field type ("zamount" = implicit decimal, "amount"/"numeric" = explicit
Latin-convention decimal, anything else returned trimmed as-is), then runs
FASE 2.  `none` models a panic. -/
def format_field_value (rawValue fieldType : Str) (formatNumeric : Bool)
    (decimalPlaces : Nat) : Option Str :=
  let rawTrimmed := trimCP rawValue
  if rawTrimmed = [] then
    some (if 0 < decimalPlaces then str "0,00" else str "0")
  else
    let fieldTypeLower := fieldType.map to_lowercase_cp
    if fieldTypeLower = str "zamount" then
      match zamount_number_string rawTrimmed decimalPlaces with
      | none => none
      | some ns => phase2 rawValue ns decimalPlaces formatNumeric
    else if fieldTypeLower = str "amount" ∨ fieldTypeLower = str "numeric" then
      let s1 := (rawTrimmed.filter (fun c => c ≠ 46)).map (fun c => if c = 44 then 46 else c)
      let s2 :=
        if s1.contains 46 = false ∧ 0 < decimalPlaces then
          s1 ++ 46 :: List.replicate decimalPlaces 48
        else s1
      let fdp := if fieldTypeLower = str "amount" ∧ decimalPlaces = 0 then 2 else decimalPlaces
      phase2 rawValue s2 fdp formatNumeric
    else some rawTrimmed

/-- One column definition, as deserialized in `src/config.rs`
(`FieldDefinition`): display name, width in bytes, type tag and two
type-dependent string parameters. -/
structure FieldDefinition where
  nombre : Str
  len : Nat
  tipo : Str
  param1 : Str
  param2 : Str
  deriving DecidableEq, Repr

/-- One format definition, as deserialized in `src/config.rs`
(`FormatDefinition`). -/
structure FormatDefinition where
  category : Str
  delimiter : Str
  fields : List FieldDefinition
  deriving DecidableEq, Repr

/-- A lookup table: code to description.  The source stores a
`HashMap<String, String>`; since only `get` is used, an association list with
the same key-value pairs is an exact model of the observable behavior. -/
abbrev Table := List (Str × Str)

/-- The schema's table map (`HashMap<String, HashMap<String, String>>` in the
source, again observed only through `get`). -/
abbrev Tables := List (Str × Table)

/-- Key lookup in an association list, modelling `HashMap::get`. -/
def assoc_find {α : Type} (l : List (Str × α)) (k : Str) : Option α :=
  (l.find? (fun p => decide (p.1 = k))).map (fun p => p.2)

/-- Model of `calculate_format_length` in `src/config.rs`: sum of the field
widths. -/
def calculate_format_length (fields : List FieldDefinition) : Nat :=
  (fields.map FieldDefinition.len).sum

/-- Model of Rust `str::parse::<usize>`: optional `+`, then one or more
ASCII digits, rejecting anything else and values that overflow 64 bits. -/
def parse_usize (s : Str) : Option Nat :=
  let body := match s with | 43 :: r => r | r => r
  if body = [] then none
  else if body.all (fun c => decide (48 ≤ c) && decide (c ≤ 57)) then
    let v := digitsToNat body
    if v < 2 ^ 64 then some v else none
  else none

/-- The decimal-place count handed to `format_field_value` by
`parse_to_records`: `field.param1.parse::<usize>().unwrap_or(2)`. -/
def decimal_places_of (p1 : Str) : Nat := (parse_usize p1).getD 2

/-- The per-field body of the record loop in `parse_to_records` (lines
220-244 of `src/parse.rs`), applied to the already trimmed slice: optional
table lookup for `"table"` fields (formatting `"<raw> - <description>"` on a
hit, silently keeping the raw value otherwise), then numeric formatting for
`"zamount"`/`"amount"` fields.  `none` models a panic inside
`format_field_value`. -/
def field_final_value (tables : Tables) (formatNumeric dontUseTables : Bool)
    (field : FieldDefinition) (rawValue : Str) : Option Str :=
  let afterLookup :=
    if field.tipo = str "table" ∧ dontUseTables = false then
      match assoc_find tables field.param1 with
      | some table =>
        match assoc_find table rawValue with
        | some lookupValue => rawValue ++ str " - " ++ lookupValue
        | none => rawValue
      | none => rawValue
    else rawValue
  if field.tipo = str "zamount" ∨ field.tipo = str "amount" then
    format_field_value afterLookup field.tipo formatNumeric (decimal_places_of field.param1)
  else some afterLookup

/-- The field loop of `parse_to_records` on one decoded line, starting at
byte cursor `startPos`: for each field, when `cursor + width` exceeds the
line's byte length push one empty string and stop; otherwise slice
`line[cursor..cursor+width]` (a byte slice — `none` models its panic off a
character boundary), trim it, resolve it with `field_final_value`, and
advance the cursor by the width. -/
def record_parts_from (tables : Tables) (formatNumeric dontUseTables : Bool)
    (line : Str) : Nat → List FieldDefinition → Option (List Str)
  | _, [] => some []
  | startPos, field :: rest =>
    let endPos := startPos + field.len
    if utf8Len line < endPos then some [[]]
    else
      (strSlice line startPos endPos).bind fun sl =>
        (field_final_value tables formatNumeric dontUseTables field (trimCP sl)).bind fun v =>
          (record_parts_from tables formatNumeric dontUseTables line endPos rest).map
            (fun r => v :: r)

/-- Record decoding of one line (the loop of `parse_to_records` with the
cursor at 0). -/
def record_parts (tables : Tables) (formatNumeric dontUseTables : Bool)
    (line : Str) (fields : List FieldDefinition) : Option (List Str) :=
  record_parts_from tables formatNumeric dontUseTables line 0 fields

/-- The line loop of `parse_to_records` over the already decoded lines: each
line is decoded to a record and appended; `none` models a panic on some
line. -/
def parse_lines (tables : Tables) (formatNumeric dontUseTables : Bool)
    (fields : List FieldDefinition) : List Str → Option (List (List Str))
  | [] => some []
  | line :: rest =>
    (record_parts tables formatNumeric dontUseTables line fields).bind fun r =>
      (parse_lines tables formatNumeric dontUseTables fields rest).map fun rs => r :: rs

/-- The headers of the wide output: the field names in order. -/
def headers_of (fields : List FieldDefinition) : List Str :=
  fields.map FieldDefinition.nombre

/-- The fixed header of the long-format (transposed) output. -/
def flat_headers : List Str := [str "#", str "Columna", str "Valor"]

/-- Column label of the transposed output:
`headers.get(col_index).cloned().unwrap_or_else(|| format!("col_<n>"))` with
`n = col_index + 1`. -/
def col_name (headers : List Str) (colIndex : Nat) : Str :=
  (headers.get? colIndex).getD (str "col_" ++ natRepr (colIndex + 1))

/-- Inner loop of the long-format pass: one 3-entry row per column of one
record, sharing the row-number string. -/
def rows_of_record (headers : List Str) (rowNum : Str) :
    Nat → List Str → List (List Str)
  | _, [] => []
  | colIndex, v :: rest =>
    [rowNum, col_name headers colIndex, v] :: rows_of_record headers rowNum (colIndex + 1) rest

/-- Outer loop of the long-format pass, `rowIndex` being the 0-based index of
the next record. -/
def transpose_from (headers : List Str) : Nat → List (List Str) → List (List Str)
  | _, [] => []
  | rowIndex, record :: rest =>
    rows_of_record headers (natRepr (rowIndex + 1)) 0 record ++
      transpose_from headers (rowIndex + 1) rest

/-- The long-format (wide-to-long) transformation of `parse_to_records`. -/
def transpose_records (headers : List Str) (records : List (List Str)) : List (List Str) :=
  transpose_from headers 0 records

/-- Model of `parse_to_records` from the decoded lines on: decode every line,
then either return headers and records as-is or, in long format, the
transposed batch under the fixed 3-column header. -/
def parse_to_records (tables : Tables) (formatNumeric dontUseTables longFormat : Bool)
    (fields : List FieldDefinition) (lines : List Str) :
    Option (List Str × List (List Str)) :=
  match parse_lines tables formatNumeric dontUseTables fields lines with
  | none => none
  | some records =>
    if longFormat then some (flat_headers, transpose_records (headers_of fields) records)
    else some (headers_of fields, records)

/-- Bytes of a file up to and including the first `\n` (or the whole file),
modelling `BufRead::read_until(b'\n', ..)` on the start of the file. -/
def take_until_incl (d : Nat) : List Nat → List Nat
  | [] => []
  | b :: rest => if b = d then [b] else b :: take_until_incl d rest

/-- Model of `get_first_line_length` in `src/io.rs`: read the first line
including its terminator, decode it under Windows-1252, strip *all* trailing
whitespace with `trim_end`, and return the UTF-8 byte length of what
remains. -/
def get_first_line_length (fileBytes : List Nat) : Nat :=
  utf8Len (trimEndCP (decode_w1252 (take_until_incl 10 fileBytes)))

/-- The error message built by `deduce_format` when no format length
matches. -/
def deduce_err_msg (dataLen : Nat) : Str :=
  str "No se pudo identificar el formato. Ningún formato coincide con la longitud de registro de " ++
    natRepr dataLen ++ str " bytes."

/-- The format scan of `deduce_format`, abstracted over the iteration order
of the backing `HashMap` (Rust hash maps iterate in an unspecified,
per-process-randomized order, so the order is a parameter of the model):
return the name of the first format whose computed length equals the
measured length, or the error message. -/
def deduce_from_order (order : List (Str × FormatDefinition)) (dataLen : Nat) :
    Except Str Str :=
  match order with
  | [] => Except.error (deduce_err_msg dataLen)
  | (name, defn) :: rest =>
    if calculate_format_length defn.fields = dataLen then Except.ok name
    else deduce_from_order rest dataLen

/-- Model of `deduce_format` in `src/parse.rs` for a readable file given as
its bytes, with the map iteration order as a parameter. -/
def deduce_format (fileBytes : List Nat) (order : List (Str × FormatDefinition)) :
    Except Str Str :=
  deduce_from_order order (get_first_line_length fileBytes)

/-- Modelled from the spec: the measured length of the first record per the
words of claim C4, "measured after decoding under the legacy character set
and stripping the trailing line terminator" — only the final `\n` (and a
preceding `\r`) is removed, unlike the source's `trim_end`, which removes all
trailing whitespace. -/
def spec_first_line_length (fileBytes : List Nat) : Nat :=
  let line := decode_w1252 (take_until_incl 10 fileBytes)
  let noLf := if line.getLast? = some 10 then line.dropLast else line
  let noCr := if noLf.getLast? = some 13 then noLf.dropLast else noLf
  utf8Len noCr

/-- Demo lookup tables for the lookup claims: one table "prov" mapping
the code "01" to "Buenos Aires". -/
def demoTables : Tables := [(str "prov", [(str "01", str "Buenos Aires")])]

/-- Demo table-kind field bound to the "prov" table. -/
def demoField : FieldDefinition := ⟨str "p", 2, str "table", str "prov", []⟩

/-- Demo format of record length 1. -/
def fmtA : FormatDefinition := ⟨[], [], [⟨str "f", 1, str "texto", [], []⟩]⟩

/-- Second demo format, also of record length 1. -/
def fmtB : FormatDefinition := ⟨[], [], [⟨str "g", 1, str "texto", [], []⟩]⟩

/-- One iteration order of the schema holding the two length-1 formats. -/
def orderAB : List (Str × FormatDefinition) := [(str "A", fmtA), (str "B", fmtB)]

/-- The other iteration order of the same schema. -/
def orderBA : List (Str × FormatDefinition) := [(str "B", fmtB), (str "A", fmtA)]

/-- Demo format of record length 3. -/
def fmtF : FormatDefinition := ⟨[], [], [⟨str "f", 3, str "texto", [], []⟩]⟩

/-- A one-format schema (any iteration order of a singleton map). -/
def orderF : List (Str × FormatDefinition) := [(str "F", fmtF)]

end Parseit


namespace Parseit

/-- One code point of the ASCII range occupies one UTF-8 byte. -/
theorem utf8Width_ascii {c : Nat} (h : c < 128) : utf8Width c = 1 := by
  simp [utf8Width, h]

/-- On ASCII-only strings the UTF-8 byte length is the character count. -/
theorem utf8Len_ascii : ∀ {s : Str}, (∀ c ∈ s, c < 128) → utf8Len s = s.length := by
  intro s
  induction s with
  | nil => intro _; rfl
  | cons c cs ih =>
    intro h
    have hc : c < 128 := h c (List.mem_cons_self c cs)
    have hcs : ∀ x ∈ cs, x < 128 := fun x hx => h x (List.mem_cons_of_mem c hx)
    simp only [utf8Len, List.map_cons, List.sum_cons, utf8Width_ascii hc, List.length_cons]
    rw [show (List.map utf8Width cs).sum = utf8Len cs from rfl, ih hcs]
    omega

/-- On ASCII-only strings, dropping bytes within range is plain list drop. -/
theorem dropBytes_ascii : ∀ {s : Str} (n : Nat), (∀ c ∈ s, c < 128) → n ≤ s.length →
    dropBytes s n = some (s.drop n) := by
  intro s
  induction s with
  | nil =>
    intro n _ hn
    have hz : n = 0 := by simpa using hn
    subst hz
    rfl
  | cons c cs ih =>
    intro n h hn
    cases n with
    | zero => rfl
    | succ m =>
      have hc : c < 128 := h c (List.mem_cons_self c cs)
      have hcs : ∀ x ∈ cs, x < 128 := fun x hx => h x (List.mem_cons_of_mem c hx)
      simp only [dropBytes, utf8Width_ascii hc]
      rw [if_pos (by omega)]
      have : m + 1 - 1 = m := by omega
      rw [this, ih m hcs (by simpa using hn)]
      simp

/-- On ASCII-only strings, taking bytes within range is plain list take. -/
theorem takeBytes_ascii : ∀ {s : Str} (n : Nat), (∀ c ∈ s, c < 128) → n ≤ s.length →
    takeBytes s n = some (s.take n) := by
  intro s
  induction s with
  | nil =>
    intro n _ hn
    have hz : n = 0 := by simpa using hn
    subst hz
    rfl
  | cons c cs ih =>
    intro n h hn
    cases n with
    | zero => rfl
    | succ m =>
      have hc : c < 128 := h c (List.mem_cons_self c cs)
      have hcs : ∀ x ∈ cs, x < 128 := fun x hx => h x (List.mem_cons_of_mem c hx)
      simp only [takeBytes, utf8Width_ascii hc]
      rw [if_pos (by omega)]
      have : m + 1 - 1 = m := by omega
      rw [this, ih m hcs (by simpa using hn)]
      simp

/-- C1: the claim's first example holds, but its second fails on the code:
`format_field_value` forces the scale with `Decimal::set_scale`, which keeps
the coefficient and rewrites only the scale, so "-1234,5" (parsed as
coefficient -12345 at scale 1) is reinterpreted at scale 2 as -123.45 and
rendered "-123,45" instead of the claimed "-1.234,50"; the input's value is
preserved only when the parsed fractional width already equals
`decimal_places`. -/
theorem c1_explicit_decimal_eval :
    format_field_value (str "1234567,89") (str "amount") true 2 = some (str "1.234.567,89") ∧
    format_field_value (str "-1234,5") (str "amount") true 2 = some (str "-123,45") ∧
    some (str "-123,45") ≠ some (str "-1.234,50") := by
  refine ⟨by decide, by decide, by decide⟩

/-- C2: the decoded line is a Rust `String` (UTF-8), so `line[a..b]` slices
the UTF-8 re-encoding by bytes; for the raw record 0xE9 0x41 ("éA" under
Windows-1252) the decoded line has UTF-8 length 3, the width-1 field bound 1
falls inside the two-byte encoding of 'é', and the slice panics (modelled as
`none`) — character offsets of the decoded line do not coincide with byte
offsets of the raw record, and slicing within the line is not total. -/
theorem c2_slicing_panic_eval :
    decode_w1252 [233, 65] = [233, 65] ∧
    utf8Len (decode_w1252 [233, 65]) = 3 ∧
    strSlice (decode_w1252 [233, 65]) 0 1 = none ∧
    record_parts [] false false (decode_w1252 [233, 65])
      [⟨str "f1", 1, str "texto", [], []⟩, ⟨str "f2", 1, str "texto", [], []⟩] = none := by
  refine ⟨by decide, by decide, by decide, by decide⟩

/-- C7: the formatter does not always return a string: with
`decimal_places = 29` the constructed text "1.5" parses fine, but
`set_scale(29)` exceeds rust_decimal's maximum scale 28 and returns an error
that `format_field_value` unwraps with `.expect`, i.e. a panic (modelled as
`none`) — contradicting the function's own doc comment ("No retorna
errores"). -/
theorem c7_scale_panic_eval :
    from_str_cp (str "1.5") = some ⟨false, 15, 1⟩ ∧
    set_scale ⟨false, 15, 1⟩ 29 = none ∧
    format_field_value (str "1,5") (str "amount") false 29 = none := by
  refine ⟨by decide, by decide, by decide⟩

/-- C5 (amended): the result of the format scan is exactly determined by the
backing map's iteration order — the first format in that order whose
computed length equals the measured length, else the error; nothing in the
code fixes the order across runs. -/
theorem c5_first_match (order : List (Str × FormatDefinition)) (L : Nat) :
    deduce_from_order order L =
      match order.find? (fun p => decide (calculate_format_length p.2.fields = L)) with
      | some p => Except.ok p.1
      | none => Except.error (deduce_err_msg L) := by
  induction order with
  | nil => rfl
  | cons hd tl ih =>
    obtain ⟨name, defn⟩ := hd
    by_cases h : calculate_format_length defn.fields = L
    · simp [deduce_from_order, h]
    · simp only [deduce_from_order]
      rw [if_neg h, ih]
      simp [h]

/-- C5 counterexample: the two iteration orders of one and the same
two-format schema (both formats of length 1) make `deduce_format` return
different names on the same measured length, refuting the claimed
determinism across runs. -/
theorem c5_counterexample :
    orderAB.Perm orderBA ∧
    deduce_from_order orderAB 1 = Except.ok (str "A") ∧
    deduce_from_order orderBA 1 = Except.ok (str "B") ∧
    str "A" ≠ str "B" := by
  refine ⟨List.Perm.swap _ _ _, by rfl, by rfl, by decide⟩

/-- C10: whenever `param1` does not parse as a `usize` (the empty string
included), the decimal-place count handed to the formatter defaults to 2;
and for every amount-kind field the record loop invokes the formatter with
exactly `decimal_places_of field.param1`. -/
theorem c10_default_decimals :
    (∀ p1 : Str, parse_usize p1 = none → decimal_places_of p1 = 2) ∧
    parse_usize ([] : Str) = none ∧
    decimal_places_of ([] : Str) = 2 ∧
    decimal_places_of (str "xx") = 2 ∧
    decimal_places_of (str "3") = 3 ∧
    (∀ (tables : Tables) (fmtN dont : Bool) (field : FieldDefinition) (raw : Str),
      (field.tipo = str "zamount" ∨ field.tipo = str "amount") →
      field_final_value tables fmtN dont field raw =
        format_field_value raw field.tipo fmtN (decimal_places_of field.param1)) := by
  refine ⟨?_, by decide, by decide, by decide, by decide, ?_⟩
  · intro p1 h
    simp [decimal_places_of, h]
  · intro tables fmtN dont field raw htipo
    have h1 : ¬ (field.tipo = str "table" ∧ dont = false) := by
      intro hc
      rcases htipo with h | h <;> rw [h] at hc <;> exact absurd hc.1 (by decide)
    simp only [field_final_value, if_neg h1, if_pos htipo]

/-- C10 witness: a field with the malformed decimal-place parameter "xx" is
formatted with the default of 2 decimal places. -/
theorem c10_default_decimals_witness :
    field_final_value [] false false ⟨str "m", 5, str "amount", str "xx", []⟩ (str "123") =
      format_field_value (str "123") (str "amount") false (decimal_places_of (str "xx")) :=
  c10_default_decimals.2.2.2.2.2 [] false false ⟨str "m", 5, str "amount", str "xx", []⟩
    (str "123") (Or.inr rfl)

end Parseit

namespace Parseit

/-- C8: table-lookup decoding — with lookups suppressed the value is the
trimmed raw slice; otherwise a hit in the named table yields
"<raw> - <description>", and a missing table or missing code silently keeps
the raw value; the demo table behaves exactly as the claim's example. -/
theorem c8_lookup :
    (∀ (tables : Tables) (fmtN : Bool) (field : FieldDefinition) (raw : Str),
      field.tipo = str "table" →
      field_final_value tables fmtN true field raw = some raw ∧
      (∀ tbl desc, assoc_find tables field.param1 = some tbl →
          assoc_find tbl raw = some desc →
          field_final_value tables fmtN false field raw = some (raw ++ str " - " ++ desc)) ∧
      (assoc_find tables field.param1 = none →
          field_final_value tables fmtN false field raw = some raw) ∧
      (∀ tbl, assoc_find tables field.param1 = some tbl → assoc_find tbl raw = none →
          field_final_value tables fmtN false field raw = some raw)) ∧
    field_final_value demoTables false false demoField (str "01") = some (str "01 - Buenos Aires") ∧
    field_final_value demoTables false false demoField (str "99") = some (str "99") ∧
    field_final_value demoTables false true demoField (str "01") = some (str "01") := by
  refine ⟨?_, by decide, by decide, by decide⟩
  intro tables fmtN field raw htipo
  have hnum : ¬ (field.tipo = str "zamount" ∨ field.tipo = str "amount") := by
    rw [htipo]
    decide
  refine ⟨?_, ?_, ?_, ?_⟩
  · have h1 : ¬ (field.tipo = str "table" ∧ (true : Bool) = false) := fun hc => by
      simpa using hc.2
    simp only [field_final_value, if_neg h1, if_neg hnum]
  · intro tbl desc htbl hdesc
    simp only [field_final_value, if_neg hnum, htbl, hdesc]
    simp [htipo]
  · intro htbl
    simp only [field_final_value, if_neg hnum, htbl]
    simp
  · intro tbl htbl hdesc
    simp only [field_final_value, if_neg hnum, htbl, hdesc]
    simp

/-- C8 witness: the demo table resolves the present code "01". -/
theorem c8_lookup_witness :
    field_final_value demoTables false false demoField (str "01") =
      some (str "01" ++ str " - " ++ str "Buenos Aires") :=
  (c8_lookup.1 demoTables false demoField (str "01") rfl).2.1
    [(str "01", str "Buenos Aires")] (str "Buenos Aires") rfl rfl

/-- C4 (amended): with the measured length taken as the source computes it —
UTF-8 length after decoding and `trim_end`, i.e. with *all* trailing
whitespace stripped, not only the line terminator — a schema in which
exactly one format's computed length equals the measured length makes
`deduce_format` return that format's name under every iteration order, and a
schema with no match yields the error message that embeds the measured
length. -/
theorem c4_deduce :
    (∀ (order : List (Str × FormatDefinition)) (L : Nat) (n : Str),
      (order.filter (fun p => decide (calculate_format_length p.2.fields = L))).map Prod.fst =
        [n] →
      deduce_from_order order L = Except.ok n) ∧
    (∀ (order : List (Str × FormatDefinition)) (L : Nat),
      order.filter (fun p => decide (calculate_format_length p.2.fields = L)) = [] →
      deduce_from_order order L = Except.error (deduce_err_msg L)) ∧
    (∀ (fileBytes : List Nat) (order : List (Str × FormatDefinition)),
      deduce_format fileBytes order = deduce_from_order order (get_first_line_length fileBytes)) ∧
    (∀ L : Nat, deduce_err_msg L =
      str "No se pudo identificar el formato. Ningún formato coincide con la longitud de registro de " ++
        natRepr L ++ str " bytes.") := by
  refine ⟨?_, ?_, fun _ _ => rfl, fun _ => rfl⟩
  · intro order
    induction order with
    | nil => intro L n h; simp at h
    | cons hd tl ih =>
      intro L n h
      obtain ⟨name, defn⟩ := hd
      by_cases hc : calculate_format_length defn.fields = L
      · rw [List.filter_cons, if_pos (by simpa using hc)] at h
        simp only [List.map_cons, List.cons.injEq] at h
        simp only [deduce_from_order, if_pos hc]
        rw [h.1]
      · rw [List.filter_cons, if_neg (by simpa using hc)] at h
        simp only [deduce_from_order, if_neg hc]
        exact ih L n h
  · intro order
    induction order with
    | nil => intro L _; rfl
    | cons hd tl ih =>
      intro L h
      obtain ⟨name, defn⟩ := hd
      by_cases hc : calculate_format_length defn.fields = L
      · rw [List.filter_cons, if_pos (by simpa using hc)] at h
        simp at h
      · rw [List.filter_cons, if_neg (by simpa using hc)] at h
        simp only [deduce_from_order, if_neg hc]
        exact ih L h

/-- C4 counterexample: for the file whose first record is "AB \n" the
claim's own measure (decode, strip the trailing line terminator) is 3, which
uniquely matches the only format of the schema, yet `deduce_format` fails:
the source measures with `trim_end`, stripping the trailing blank as well,
and looks for length 2. -/
theorem c4_counterexample :
    spec_first_line_length [65, 66, 32, 10] = 3 ∧
    (orderF.filter (fun p => decide (calculate_format_length p.2.fields = 3))).map Prod.fst =
      [str "F"] ∧
    get_first_line_length [65, 66, 32, 10] = 2 ∧
    deduce_format [65, 66, 32, 10] orderF = Except.error (deduce_err_msg 2) := by
  refine ⟨by decide, by decide, by decide, by rfl⟩

/-- C4 witness: a first record with no trailing whitespace, "ABC\n", measures
3 and the unique length-3 format "F" is deduced. -/
theorem c4_deduce_witness :
    deduce_format [65, 66, 67, 10] orderF = Except.ok (str "F") := by
  rw [c4_deduce.2.2.1 [65, 66, 67, 10] orderF]
  exact c4_deduce.1 orderF (get_first_line_length [65, 66, 67, 10]) (str "F") (by decide)

/-- Helper for C3: if the field loop starting at `cursor` first overruns the
line at field index `i` (every earlier field fits, field `i` does not), then
the record it produces has exactly `i + 1` entries and ends with the empty
string. -/
theorem record_parts_from_trunc (tables : Tables) (fmtN dont : Bool) (line : Str) :
    ∀ (fields : List FieldDefinition) (i cursor : Nat) (fi : FieldDefinition) (r : List Str),
      fields.get? i = some fi →
      cursor + calculate_format_length (fields.take i) ≤ utf8Len line →
      utf8Len line < cursor + calculate_format_length (fields.take i) + fi.len →
      record_parts_from tables fmtN dont line cursor fields = some r →
      r.length = i + 1 ∧ r.getLast? = some ([] : Str) := by
  intro fields
  induction fields with
  | nil => intro i cursor fi r hget _ _ _; simp at hget
  | cons f tl ih =>
    intro i cursor fi r hget hle hlt hr
    cases i with
    | zero =>
      have hfi : f = fi := by simpa using hget
      subst hfi
      have hz : calculate_format_length ((f :: tl).take 0) = 0 := by
        simp [calculate_format_length]
      rw [hz] at hle hlt
      simp only [record_parts_from] at hr
      rw [if_pos (by omega)] at hr
      obtain rfl := (Option.some.inj hr).symm
      exact ⟨rfl, rfl⟩
    | succ j =>
      have hget2 : tl.get? j = some fi := by simpa using hget
      have hsum : calculate_format_length ((f :: tl).take (j + 1)) =
          f.len + calculate_format_length (tl.take j) := by
        simp [calculate_format_length]
      rw [hsum] at hle hlt
      simp only [record_parts_from] at hr
      rw [if_neg (by omega)] at hr
      obtain ⟨sl, hsl, hr⟩ := Option.bind_eq_some.mp hr
      obtain ⟨v, hfv, hr⟩ := Option.bind_eq_some.mp hr
      obtain ⟨r2, hrec, hr⟩ := Option.map_eq_some'.mp hr
      subst hr
      have hih := ih j (cursor + f.len) fi r2 hget2 (by omega) (by omega) hrec
      refine ⟨by simp [hih.1], ?_⟩
      obtain ⟨x, xs, rfl⟩ : ∃ x xs, r2 = x :: xs := by
        cases r2 with
        | nil => exact absurd hih.1 (by simp)
        | cons x xs => exact ⟨x, xs, rfl⟩
      rw [List.getLast?_cons_cons]
      exact hih.2

/-- C3 (amended): when the running cursor plus the current field's width
first exceeds the line's length at field index `i`, the decoder pushes one
empty string and stops: the record has exactly `i + 1` entries ending in the
empty string — strictly fewer than the format's field count whenever the
overrunning field is not the last one (and equal to it when it is) — and the
line loop carries on with the remaining lines instead of aborting. -/
theorem c3_truncation (tables : Tables) (fmtN dont : Bool) (line : Str)
    (fields : List FieldDefinition) (i : Nat) (fi : FieldDefinition) (r : List Str)
    (hget : fields.get? i = some fi)
    (hle : calculate_format_length (fields.take i) ≤ utf8Len line)
    (hlt : utf8Len line < calculate_format_length (fields.take i) + fi.len)
    (hr : record_parts tables fmtN dont line fields = some r) :
    r.length = i + 1 ∧ r.getLast? = some ([] : Str) ∧ i + 1 ≤ fields.length ∧
    (i + 1 < fields.length → r.length < fields.length) ∧
    (∀ rest rs, parse_lines tables fmtN dont fields rest = some rs →
      parse_lines tables fmtN dont fields (line :: rest) = some (r :: rs)) := by
  have h := record_parts_from_trunc tables fmtN dont line fields i 0 fi r hget
    (by simpa using hle) (by simpa using hlt) hr
  have hbound : i < fields.length := List.get?_eq_some.mp hget |>.1
  refine ⟨h.1, h.2, by omega, fun hlt2 => by omega, ?_⟩
  intro rest rs hrest
  simp only [parse_lines, hr, hrest, Option.some_bind, Option.map_some']

/-- C3 witness: on the line "ABCD" with fields of widths 2 and 3 the second
field overruns; the record is ["AB", ""] with 2 = 1 + 1 entries ending in the
empty string. -/
theorem c3_truncation_witness :
    ([str "AB", ([] : Str)] : List Str).length = 1 + 1 ∧
    ([str "AB", ([] : Str)] : List Str).getLast? = some ([] : Str) := by
  have h := c3_truncation [] false false (str "ABCD")
    [⟨str "a", 2, str "texto", [], []⟩, ⟨str "b", 3, str "texto", [], []⟩] 1
    ⟨str "b", 3, str "texto", [], []⟩ [str "AB", []]
    (by decide) (by decide) (by decide) (by decide)
  exact ⟨h.1, h.2.1⟩

/-- C3 counterexample: for a one-field format of width 2 and the length-1
line "A" the truncation fires at the last (only) field, and the produced
record has exactly as many entries as the format has fields — not fewer, as
the claim states. -/
theorem c3_counterexample :
    record_parts [] false false (str "A") [⟨str "f", 2, str "texto", [], []⟩] =
      some [([] : Str)] ∧
    ¬ (([([] : Str)] : List (List Nat)).length <
        ([⟨str "f", 2, str "texto", [], []⟩] : List FieldDefinition).length) := by
  exact ⟨by decide, by decide⟩

end Parseit

namespace Parseit

/-- C6: the three implicit-decimal examples hold, and in general, for every
nonempty all-digit raw string shorter than the decimal-place count, the
constructed decimal text is "0." followed by `dp - len` padding zeros and the
raw digits: the value is left-padded until one integer digit remains and the
integer part is rendered "0", never empty. -/
theorem c6_implicit_decimal :
    format_field_value (str "00012345") (str "zamount") false 2 = some (str "123,45") ∧
    format_field_value (str "5") (str "zamount") false 2 = some (str "0,05") ∧
    format_field_value (str "") (str "zamount") false 2 = some (str "0,00") ∧
    (∀ (raw : Str) (dp : Nat), raw ≠ [] → raw.length < dp →
      (∀ c ∈ raw, 48 ≤ c ∧ c ≤ 57) →
      zamount_number_string raw dp =
        some (48 :: 46 :: (List.replicate (dp - raw.length) 48 ++ raw))) := by
  refine ⟨by decide, by decide, by decide, ?_⟩
  intro raw dp h0 hlen hdig
  have hascii : ∀ c ∈ raw, c < 128 := fun c hc => by
    have := (hdig c hc).2
    omega
  have hLraw : utf8Len raw = raw.length := utf8Len_ascii hascii
  have hip : List.replicate (dp - raw.length + 1) 48 ++ raw =
      48 :: (List.replicate (dp - raw.length) 48 ++ raw) := by
    rw [List.replicate_succ]
    rfl
  have hipascii : ∀ c ∈ List.replicate (dp - raw.length + 1) 48 ++ raw, c < 128 := by
    intro c hc
    rcases List.mem_append.mp hc with h | h
    · rw [List.eq_of_mem_replicate h]
      omega
    · exact hascii c h
  have hiplen : (List.replicate (dp - raw.length + 1) 48 ++ raw).length = dp + 1 := by
    simp only [List.length_append, List.length_replicate]
    omega
  have hLip : utf8Len (List.replicate (dp - raw.length + 1) 48 ++ raw) = dp + 1 := by
    rw [utf8Len_ascii hipascii, hiplen]
  have hslice : strSlice (List.replicate (dp - raw.length + 1) 48 ++ raw) 0 1 = some [48] := by
    rw [strSlice, if_pos (by omega)]
    rw [show dropBytes (List.replicate (dp - raw.length + 1) 48 ++ raw) 0 =
      some (List.replicate (dp - raw.length + 1) 48 ++ raw) from rfl]
    rw [Option.some_bind]
    rw [show (1 : Nat) - 0 = 1 from rfl]
    rw [takeBytes_ascii 1 hipascii (by omega)]
    rw [hip]
    simp
  have hdrop : dropBytes (List.replicate (dp - raw.length + 1) 48 ++ raw) 1 =
      some (List.replicate (dp - raw.length) 48 ++ raw) := by
    rw [dropBytes_ascii 1 hipascii (by omega)]
    rw [hip]
    simp
  simp only [zamount_number_string, hLraw]
  rw [if_pos hlen]
  simp only [hLip]
  rw [show dp + 1 - dp = 1 from by omega]
  rw [hslice, hdrop]
  simp [List.dropWhile]

/-- C6 witness: the general law at raw "5" with 3 decimal places gives the
text "0.005". -/
theorem c6_implicit_decimal_witness :
    zamount_number_string (str "5") 3 =
      some (48 :: 46 :: (List.replicate (3 - (str "5").length) 48 ++ str "5")) :=
  c6_implicit_decimal.2.2.2 (str "5") 3 (by decide) (by decide) (by decide)

/-- Helper for C9: every emitted long-format row has exactly 3 entries. -/
theorem rows_of_record_row_len (headers : List Str) (rowNum : Str) :
    ∀ (record : List Str) (cIdx : Nat) (row : List Str),
      row ∈ rows_of_record headers rowNum cIdx record → row.length = 3 := by
  intro record
  induction record with
  | nil => intro cIdx row h; simp [rows_of_record] at h
  | cons x rest ih =>
    intro cIdx row h
    rcases List.mem_cons.mp h with h | h
    · rw [h]
      rfl
    · exact ih (cIdx + 1) row h

/-- Helper for C9: one record contributes one row per column. -/
theorem rows_of_record_length (headers : List Str) (rowNum : Str) :
    ∀ (record : List Str) (cIdx : Nat),
      (rows_of_record headers rowNum cIdx record).length = record.length := by
  intro record
  induction record with
  | nil => intro _; rfl
  | cons x rest ih =>
    intro cIdx
    simp [rows_of_record, ih]

/-- Helper for C9: the row emitted for column `j` of one record carries the
row number, the positional column label and the value. -/
theorem rows_of_record_get (headers : List Str) (rowNum : Str) :
    ∀ (record : List Str) (cIdx j : Nat) (v : Str), record.get? j = some v →
      (rows_of_record headers rowNum cIdx record).get? j =
        some [rowNum, col_name headers (cIdx + j), v] := by
  intro record
  induction record with
  | nil => intro cIdx j v h; simp at h
  | cons x rest ih =>
    intro cIdx j v h
    cases j with
    | zero =>
      have hx : x = v := by simpa using h
      subst hx
      simp [rows_of_record]
    | succ k =>
      have h2 : rest.get? k = some v := by simpa using h
      simp only [rows_of_record, List.get?_cons_succ]
      rw [ih (cIdx + 1) k v h2]
      rw [show cIdx + 1 + k = cIdx + (k + 1) from by omega]

/-- Helper for C9: every transposed row has exactly 3 entries. -/
theorem transpose_from_row_len (headers : List Str) :
    ∀ (records : List (List Str)) (rIdx : Nat) (row : List Str),
      row ∈ transpose_from headers rIdx records → row.length = 3 := by
  intro records
  induction records with
  | nil => intro rIdx row h; simp [transpose_from] at h
  | cons r rest ih =>
    intro rIdx row h
    rcases List.mem_append.mp h with h | h
    · exact rows_of_record_row_len headers (natRepr (rIdx + 1)) r 0 row h
    · exact ih (rIdx + 1) row h

/-- Helper for C9: the transposed batch has one row per (record, column)
pair. -/
theorem transpose_from_length (headers : List Str) :
    ∀ (records : List (List Str)) (rIdx : Nat),
      (transpose_from headers rIdx records).length = (records.map List.length).sum := by
  intro records
  induction records with
  | nil => intro _; rfl
  | cons r rest ih =>
    intro rIdx
    simp [transpose_from, rows_of_record_length, ih]

/-- Helper for C9: position `sum of earlier record lengths + j` of the
transposed batch holds the row for column `j` of record `i`, with the
1-based row number offset by the starting index. -/
theorem transpose_from_get (headers : List Str) :
    ∀ (records : List (List Str)) (rIdx i j : Nat) (ri : List Str) (v : Str),
      records.get? i = some ri → ri.get? j = some v →
      (transpose_from headers rIdx records).get?
          (((records.take i).map List.length).sum + j) =
        some [natRepr (rIdx + i + 1), col_name headers j, v] := by
  intro records
  induction records with
  | nil => intro rIdx i j ri v h _; simp at h
  | cons r rest ih =>
    intro rIdx i j ri v hi hj
    cases i with
    | zero =>
      have hr : r = ri := by simpa using hi
      subst hr
      simp only [List.take_zero, List.map_nil, List.sum_nil, Nat.zero_add, transpose_from]
      rw [List.get?_append (by
        rw [rows_of_record_length]
        exact (List.get?_eq_some.mp hj).1)]
      rw [rows_of_record_get headers _ r 0 j v hj]
      simp
    | succ k =>
      have hi2 : rest.get? k = some ri := by simpa using hi
      simp only [transpose_from]
      have hidx : (((r :: rest).take (k + 1)).map List.length).sum + j =
          (rows_of_record headers (natRepr (rIdx + 1)) 0 r).length +
            ((((rest.take k).map List.length).sum) + j) := by
        rw [rows_of_record_length]
        simp only [List.take_succ_cons, List.map_cons, List.sum_cons]
        omega
      rw [hidx, List.get?_append_right (by omega)]
      rw [show (rows_of_record headers (natRepr (rIdx + 1)) 0 r).length +
          ((((rest.take k).map List.length).sum) + j) -
          (rows_of_record headers (natRepr (rIdx + 1)) 0 r).length =
          (((rest.take k).map List.length).sum) + j from by omega]
      rw [ih (rIdx + 1) k j ri v hi2 hj]
      rw [show rIdx + 1 + k + 1 = rIdx + (k + 1) + 1 from by omega]

/-- C9: the long-format pass produces exactly the header
["#", "Columna", "Valor"]; every output row has 3 entries; the output has
one row per (record, column) pair of the input — `M * N` rows when all `M`
records have `N` columns — ordered with all columns of a record before the
next record; and the row at the position of (record `i`, column `j`) is the
1-based row number, the positional header name (with the synthetic fallback
built into `col_name`) and the value. -/
theorem c9_transpose :
    (∀ (headers : List Str) (records : List (List Str)) (row : List Str),
      row ∈ transpose_records headers records → row.length = 3) ∧
    (∀ (headers : List Str) (records : List (List Str)),
      (transpose_records headers records).length = (records.map List.length).sum) ∧
    (∀ (headers : List Str) (records : List (List Str)) (N : Nat),
      (∀ r ∈ records, r.length = N) →
      (transpose_records headers records).length = records.length * N) ∧
    (∀ (headers : List Str) (records : List (List Str)) (i j : Nat) (ri : List Str) (v : Str),
      records.get? i = some ri → ri.get? j = some v →
      (transpose_records headers records).get? (((records.take i).map List.length).sum + j) =
        some [natRepr (i + 1), col_name headers j, v]) ∧
    (∀ (tables : Tables) (fmtN dont : Bool) (fields : List FieldDefinition)
        (lines : List Str) (records : List (List Str)),
      parse_lines tables fmtN dont fields lines = some records →
      parse_to_records tables fmtN dont true fields lines =
        some (flat_headers, transpose_records (headers_of fields) records)) := by
  refine ⟨?_, ?_, ?_, ?_, ?_⟩
  · intro headers records row h
    exact transpose_from_row_len headers records 0 row h
  · intro headers records
    exact transpose_from_length headers records 0
  · intro headers records N hall
    rw [transpose_records, transpose_from_length]
    have hrep : records.map List.length = List.replicate records.length N := by
      rw [List.eq_replicate]
      refine ⟨List.length_map records List.length, ?_⟩
      intro b hb
      obtain ⟨r, hr, hb⟩ := List.mem_map.mp hb
      rw [← hb]
      exact hall r hr
    rw [hrep, List.sum_replicate, smul_eq_mul]
  · intro headers records i j ri v hi hj
    have h := transpose_from_get headers records 0 i j ri v hi hj
    simpa using h
  · intro tables fmtN dont fields lines records hpl
    simp [parse_to_records, hpl]

/-- C9 witness: in the transposed batch of two records of widths 2 and 1,
the row at offset 2 (after the two rows of record 1) is row number "2",
column label "h1", value "z". -/
theorem c9_transpose_witness :
    (transpose_records [str "h1", str "h2"] [[str "x", str "y"], [str "z"]]).get?
        ((([[str "x", str "y"], [str "z"]].take 1).map List.length).sum + 0) =
      some [natRepr (1 + 1), col_name [str "h1", str "h2"] 0, str "z"] :=
  c9_transpose.2.2.2.1 [str "h1", str "h2"] [[str "x", str "y"], [str "z"]] 1 0
    [str "z"] (str "z") (by decide) (by decide)

end Parseit
